import Mathlib

/-!
A verification development for the Entrope audio-degradation pipeline
(`src/src/lib.rs`, `fn process`).  Samples and parameters are modelled by
exact real numbers (the source works on `f32`); machine integers (`i32`,
`usize`) are modelled by `ℤ` and `ℕ`.  The third-party random generator is
modelled by an abstract state type `G` together with a draw function
`G → ℤ → ℤ → ℤ × G` standing for `gen_range(lo..hi)`.
-/

namespace Entrope

/-- Truncation toward zero, the integer rounding underlying Rust's float
remainder operator `%`. -/
noncomputable def truncR (x : ℝ) : ℤ :=
  if 0 ≤ x then ⌊x⌋ else ⌈x⌉

/-- Rust's `f32` remainder `s % m`: the remainder of truncating division,
carrying the sign of the dividend `s`. -/
noncomputable def rustRem (s m : ℝ) : ℝ :=
  s - m * truncR (s / m)

/-- `let total_q_levels = 2.0f32.powf(crush)` from the source, modelled
exactly in the reals by `Real.rpow`. -/
noncomputable def totalQLevels (crush : ℝ) : ℝ :=
  (2 : ℝ) ^ crush

/-- The quantization step `1.0 / total_q_levels` used as the modulus of the
remainder in the source's quantizer. -/
noncomputable def qstep (crush : ℝ) : ℝ :=
  1 / totalQLevels crush

/-- The Bit-Depth Quantizer: `let remainder = *sample % (1.0 / total_q_levels);
*sample -= remainder;` from the source. -/
noncomputable def quantize (crush s : ℝ) : ℝ :=
  s - rustRem s (qstep crush)

/-- The decimator block of the per-sample loop:
`if redux > 1 { if i as i32 % redux != 0 { *sample = reduced } else { reduced = *sample } }`.
Input `s` is the current (already quantized) sample, `reduced` the held cell;
the result is the pair (new sample value, new held cell).  The operands of
`%` are nonnegative here (`i : ℕ`, `redux > 1`), so `Int.emod` agrees with
Rust's remainder. -/
noncomputable def decimate (redux : ℤ) (i : ℕ) (reduced s : ℝ) : ℝ × ℝ :=
  if 1 < redux then
    (if (i : ℤ) % redux ≠ 0 then (reduced, reduced) else (s, s))
  else (s, reduced)

/-- The clipper block of the per-sample loop:
`if clip_max != 0.0 && *sample < clip_max { *sample = clip_max }` followed by
`if clip_min != 0.0 && *sample > clip_min { *sample = clip_min }`. -/
noncomputable def clipStage (clipMax clipMin s : ℝ) : ℝ :=
  let s1 := if clipMax ≠ 0 ∧ s < clipMax then clipMax else s
  if clipMin ≠ 0 ∧ clipMin < s1 then clipMin else s1

/-- One iteration of the inner per-sample loop body: quantize, then the
decimator block, then the clipper block.  Returns (new sample, new held
cell). -/
noncomputable def stepSample (crush : ℝ) (redux : ℤ) (clipMax clipMin : ℝ)
    (i : ℕ) (reduced s : ℝ) : ℝ × ℝ :=
  let q := quantize crush s
  let d := decimate redux i reduced q
  (clipStage clipMax clipMin d.1, d.2)

/-- The inner loop `for sample in channel_samples`: processes the channel
values of one frame in order, threading the held cell through the channels.
Returns (processed frame, final held cell). -/
noncomputable def stepFrame (crush : ℝ) (redux : ℤ) (clipMax clipMin : ℝ)
    (i : ℕ) (reduced : ℝ) : List ℝ → List ℝ × ℝ
  | [] => ([], reduced)
  | s :: rest =>
    let p := stepSample crush redux clipMax clipMin i reduced s
    let q := stepFrame crush redux clipMax clipMin i p.2 rest
    (p.1 :: q.1, q.2)

/-- The outer loop `for (i, channel_samples) in buffer.iter_samples().enumerate()`:
the frame index `i` advances once per multichannel frame, and the single held
cell is threaded from frame to frame. -/
noncomputable def stepFrames (crush : ℝ) (redux : ℤ) (clipMax clipMin : ℝ)
    (i : ℕ) (reduced : ℝ) : List (List ℝ) → List (List ℝ)
  | [] => []
  | f :: rest =>
    let p := stepFrame crush redux clipMax clipMin i reduced f
    p.1 :: stepFrames crush redux clipMax clipMin (i + 1) p.2 rest

/-- One step of the pre-pass scan.  The accumulator's first component is the
source's variable `max` (updated by `if sample < max { max = sample }`, so it
tracks a minimum), its second component the source's variable `min` (updated
by `if sample > min { min = sample }`, so it tracks a maximum). -/
noncomputable def scanStep (acc : ℝ × ℝ) (s : ℝ) : ℝ × ℝ :=
  (if s < acc.1 then s else acc.1, if acc.2 < s then s else acc.2)

/-- The pre-pass scan over every sample, both accumulators initialized to 0.
The source iterates the concatenation of the channel slices; the fold's value
is independent of traversal order (see `scanMinMax_eq_foldl`), so the flat
list of samples is taken as input. -/
noncomputable def scanMinMax (samples : List ℝ) : ℝ × ℝ :=
  samples.foldl scanStep (0, 0)

/-- Threshold computation: `clip_max`/`clip_min` stay 0 unless `clip < 1.0`,
in which case `clip_max = clip * max` and `clip_min = clip * min` for the
scan variables `max` and `min` of `scanMinMax`. -/
noncomputable def clipThresholds (clip : ℝ) (samples : List ℝ) : ℝ × ℝ :=
  if clip < 1 then
    (clip * (scanMinMax samples).1, clip * (scanMinMax samples).2)
  else (0, 0)

/-- The entropy modulator:
`if entropy > 1 { let n = self.gen.gen_range(1..entropy); crush = crush / n as f32; }`.
`draw g lo hi` abstracts `gen_range(lo..hi)`, returning the drawn integer and
the advanced generator state.  Returns (effective crush, new generator). -/
noncomputable def entropyStep {G : Type} (draw : G → ℤ → ℤ → ℤ × G)
    (entropy : ℤ) (crush : ℝ) (g : G) : ℝ × G :=
  if 1 < entropy then
    let p := draw g 1 entropy
    (crush / (p.1 : ℝ), p.2)
  else (crush, g)

/-- The whole of `fn process`: entropy modulation, threshold computation,
then the per-sample double loop with frame index starting at 0 and the held
cell `reduced` initialized to 0.  The buffer is the frame-major list of
frames produced by `iter_samples`; its flattening carries exactly the samples
the source's channel-major scan visits. -/
noncomputable def process {G : Type} (draw : G → ℤ → ℤ → ℤ × G) (g : G)
    (crush : ℝ) (redux entropy : ℤ) (clip : ℝ)
    (buf : List (List ℝ)) : List (List ℝ) × G :=
  let e := entropyStep draw entropy crush g
  let t := clipThresholds clip buf.flatten
  (stepFrames e.1 redux t.1 t.2 0 0 buf, e.2)

/-- The Sample-Hold Decimator as the specification words it, used as the
refinement reference for the decimator claims: at a position whose index is a
multiple of `redux` the current sample is stored as the held value and passed
through; at every other position the sample is replaced by the held value. -/
noncomputable def specHold (redux : ℤ) (i : ℕ) (held : ℝ) : List ℝ → List ℝ
  | [] => []
  | x :: rest =>
    let h := if (i : ℤ) % redux = 0 then x else held
    h :: specHold redux (i + 1) h rest

/-! ### Basic lemmas about the scan -/

theorem scanStep_eq (acc : ℝ × ℝ) (s : ℝ) :
    scanStep acc s = (min acc.1 s, max acc.2 s) := by
  unfold scanStep
  simp only [Prod.mk.injEq]
  constructor
  · rcases lt_or_le s acc.1 with h | h
    · simp [if_pos h, min_eq_right h.le]
    · simp [if_neg (not_lt.mpr h), min_eq_left h]
  · rcases lt_or_le acc.2 s with h | h
    · simp [if_pos h, max_eq_right h.le]
    · simp [if_neg (not_lt.mpr h), max_eq_left h]

theorem scanMinMax_eq_foldl (l : List ℝ) :
    ∀ a b : ℝ, l.foldl scanStep (a, b) = (l.foldl min a, l.foldl max b) := by
  induction l with
  | nil => intro a b; rfl
  | cons x t ih =>
    intro a b
    simp only [List.foldl_cons, scanStep_eq]
    exact ih (min a x) (max b x)

theorem foldl_min_le (l : List ℝ) : ∀ a : ℝ, l.foldl min a ≤ a := by
  induction l with
  | nil => intro a; exact le_refl a
  | cons x t ih =>
    intro a
    simpa using le_trans (ih (min a x)) (min_le_left a x)

theorem le_foldl_max (l : List ℝ) : ∀ a : ℝ, a ≤ l.foldl max a := by
  induction l with
  | nil => intro a; exact le_refl a
  | cons x t ih =>
    intro a
    simpa using le_trans (le_max_left a x) (ih (max a x))

theorem clipThresholds_fst_nonpos {clip : ℝ} (h : 0 ≤ clip) (l : List ℝ) :
    (clipThresholds clip l).1 ≤ 0 := by
  unfold clipThresholds
  by_cases hc : clip < 1
  · simp only [if_pos hc]
    have hm : (scanMinMax l).1 ≤ 0 := by
      unfold scanMinMax
      rw [scanMinMax_eq_foldl]
      exact foldl_min_le l 0
    exact mul_nonpos_iff.mpr (Or.inl ⟨h, hm⟩)
  · simp [if_neg hc]

theorem clipThresholds_snd_nonneg {clip : ℝ} (h : 0 ≤ clip) (l : List ℝ) :
    0 ≤ (clipThresholds clip l).2 := by
  unfold clipThresholds
  by_cases hc : clip < 1
  · simp only [if_pos hc]
    have hm : 0 ≤ (scanMinMax l).2 := by
      unfold scanMinMax
      rw [scanMinMax_eq_foldl]
      exact le_foldl_max l 0
    exact mul_nonneg h hm
  · simp [if_neg hc]

/-! ### Basic lemmas about the clipper stage -/

theorem clipStage_zero_zero (s : ℝ) : clipStage 0 0 s = s := by
  simp [clipStage]

theorem clipStage_fst_zero (cm s : ℝ) :
    clipStage 0 cm s = if cm ≠ 0 ∧ cm < s then cm else s := by
  simp [clipStage]

theorem clipStage_snd_zero (cM s : ℝ) :
    clipStage cM 0 s = if cM ≠ 0 ∧ s < cM then cM else s := by
  simp [clipStage]

/-! ### Lemmas about the per-sample loop -/

theorem stepFrame_redux_le_one (crush : ℝ) {redux : ℤ} (h : ¬ 1 < redux)
    (cM cm : ℝ) (i : ℕ) (f : List ℝ) :
    ∀ r : ℝ, stepFrame crush redux cM cm i r f
      = (f.map fun s => clipStage cM cm (quantize crush s), r) := by
  induction f with
  | nil => intro r; rfl
  | cons x t ih =>
    intro r
    simp only [stepFrame, stepSample, decimate, if_neg h, List.map_cons, ih r]

theorem stepFrames_redux_le_one (crush : ℝ) {redux : ℤ} (h : ¬ 1 < redux)
    (cM cm : ℝ) (buf : List (List ℝ)) :
    ∀ (i : ℕ) (r : ℝ), stepFrames crush redux cM cm i r buf
      = buf.map (List.map fun s => clipStage cM cm (quantize crush s)) := by
  induction buf with
  | nil => intro i r; rfl
  | cons f rest ih =>
    intro i r
    simp only [stepFrames, List.map_cons, stepFrame_redux_le_one crush h cM cm i f r,
      ih (i + 1) r]

theorem stepFrame_hold (crush : ℝ) {redux : ℤ} (hr : 1 < redux) (cM cm : ℝ)
    {i : ℕ} (hi : (i : ℤ) % redux = 0) (f : List ℝ) :
    ∀ r : ℝ, stepFrame crush redux cM cm i r f
      = (f.map fun s => clipStage cM cm (quantize crush s),
         (f.map (quantize crush)).getLastD r) := by
  induction f with
  | nil => intro r; rfl
  | cons x t ih =>
    intro r
    simp only [stepFrame, stepSample, decimate, if_pos hr, hi, ne_eq,
      not_true_eq_false, if_neg, List.map_cons, ih (quantize crush x),
      List.getLastD_cons, ite_false]

theorem stepFrame_held (crush : ℝ) {redux : ℤ} (hr : 1 < redux) (cM cm : ℝ)
    {i : ℕ} (hi : (i : ℤ) % redux ≠ 0) (f : List ℝ) :
    ∀ r : ℝ, stepFrame crush redux cM cm i r f
      = (f.map fun _ => clipStage cM cm r, r) := by
  induction f with
  | nil => intro r; rfl
  | cons x t ih =>
    intro r
    simp [stepFrame, stepSample, decimate, if_pos hr, hi, ih r]

theorem getLastD_of_ne_nil {α : Type} {l : List α} (h : l ≠ []) (a b : α) :
    l.getLastD a = l.getLastD b := by
  cases l with
  | nil => exact absurd rfl h
  | cons x t => rw [List.getLastD_cons, List.getLastD_cons]

/-- The mono-channel per-sample loop agrees with the spec's description of
the sample-and-hold decimator when `redux > 1` and the clipper is disabled. -/
theorem stepFrames_mono_specHold (crush : ℝ) {redux : ℤ} (hr : 1 < redux)
    (xs : List ℝ) :
    ∀ (i : ℕ) (r : ℝ),
      stepFrames crush redux 0 0 i r (xs.map fun x => [x])
        = (specHold redux i r (xs.map (quantize crush))).map fun x => [x] := by
  induction xs with
  | nil => intro i r; rfl
  | cons x t ih =>
    intro i r
    by_cases hi : (i : ℤ) % redux = 0
    · simp only [List.map_cons, stepFrames, stepFrame, stepSample, decimate,
        if_pos hr, hi, ne_eq, not_true_eq_false, if_neg, specHold, if_pos,
        clipStage_zero_zero, ih (i + 1) (quantize crush x), ite_false, ite_true]
    · simp only [List.map_cons, stepFrames, stepFrame, stepSample, decimate,
        if_pos hr, hi, ne_eq, specHold, if_neg, clipStage_zero_zero,
        ih (i + 1) r, ite_true, ite_false, not_false_eq_true]

/-! ### Lemmas about the quantizer -/

theorem truncR_intCast (k : ℤ) : truncR (k : ℝ) = k := by
  unfold truncR
  by_cases h : 0 ≤ (k : ℝ)
  · rw [if_pos h, Int.floor_intCast]
  · rw [if_neg h, Int.ceil_intCast]

theorem truncR_neg (x : ℝ) : truncR (-x) = -truncR x := by
  unfold truncR
  rcases lt_trichotomy x 0 with h | h | h
  · rw [if_pos (by linarith), if_neg (not_le.mpr h), Int.floor_neg]
  · subst h; simp
  · rw [if_neg (not_le.mpr (by linarith)), if_pos h.le, Int.ceil_neg]

theorem rustRem_neg (s m : ℝ) : rustRem (-s) m = -rustRem s m := by
  unfold rustRem
  rw [neg_div, truncR_neg]
  push_cast
  ring

theorem totalQLevels_pos (d : ℝ) : 0 < totalQLevels d :=
  Real.rpow_pos_of_pos (by norm_num) d

theorem qstep_pos (d : ℝ) : 0 < qstep d :=
  div_pos one_pos (totalQLevels_pos d)

theorem quantize_eq_mul_trunc (d s : ℝ) :
    quantize d s = qstep d * (truncR (s / qstep d) : ℝ) := by
  unfold quantize rustRem
  ring

theorem qstep_le_quarter {d : ℝ} (h : 2 ≤ d) : qstep d ≤ 1 / 4 := by
  have h4 : (4 : ℝ) ≤ totalQLevels d := by
    have h2 : (2 : ℝ) ^ (2 : ℝ) ≤ (2 : ℝ) ^ d :=
      (Real.rpow_le_rpow_left_iff one_lt_two).mpr h
    calc (4 : ℝ) = (2 : ℝ) ^ (2 : ℝ) := by rw [Real.rpow_two]; norm_num
    _ ≤ totalQLevels d := h2
  calc qstep d = 1 / totalQLevels d := rfl
  _ ≤ 1 / 4 := one_div_le_one_div_of_le (by norm_num) h4

theorem qstep_lt_one {d : ℝ} (h : 0 < d) : qstep d < 1 := by
  have h1 : 1 < totalQLevels d :=
    (Real.one_lt_rpow_iff_of_pos (by norm_num)).mpr (Or.inl ⟨one_lt_two, h⟩)
  calc qstep d = 1 / totalQLevels d := rfl
  _ < 1 := by rw [div_lt_one (totalQLevels_pos d)]; exact h1

/-! ### Claim C1: clipper threshold computation -/

/-- C1 counterexample: for clip = 1/2 and a buffer whose samples are 0.8 and
−0.6 (maximum 0.8, minimum −0.6), the code computes clip_max = clip × (−0.6),
which differs from clip × 0.8 as the claim states. -/
theorem clip_thresholds_swapped_cex :
    (clipThresholds (1 / 2) [4 / 5, -(3 / 5)]).1 = (1 / 2) * (-(3 / 5)) ∧
      (1 / 2 : ℝ) * (-(3 / 5)) ≠ (1 / 2) * (4 / 5) := by
  constructor
  · norm_num [clipThresholds, scanMinMax, scanStep]
  · norm_num

/-- C1 (amended): for clip < 1 the thresholds come from a single pre-pass
over every sample with both accumulators initialized to 0, but with the roles
of min and max swapped relative to the claim: clipMax = clip × (the running
minimum of the samples from 0) and clipMin = clip × (the running maximum of
the samples from 0); for a buffer with maximum 0.8 and minimum −0.6 this
gives clipMax = clip × (−0.6) and clipMin = clip × 0.8. -/
theorem clip_thresholds_amended (clip : ℝ) (samples : List ℝ) (h : clip < 1) :
    clipThresholds clip samples
      = (clip * samples.foldl min 0, clip * samples.foldl max 0) := by
  unfold clipThresholds scanMinMax
  rw [if_pos h, scanMinMax_eq_foldl]

theorem clip_thresholds_amended_witness :
    clipThresholds (1 / 2) [4 / 5, -(3 / 5)]
      = (1 / 2 * ([4 / 5, -(3 / 5)] : List ℝ).foldl min 0,
         1 / 2 * ([4 / 5, -(3 / 5)] : List ℝ).foldl max 0) :=
  clip_thresholds_amended (1 / 2) [4 / 5, -(3 / 5)] one_half_lt_one

/-! ### Claim C2: quantization step bounds -/

/-- C2 counterexample: crush = 2 ∈ [2, 32], entropy = 3 > 1 and a drawn
n = 2 ∈ [1, 3) give effective depth 2 / 2 = 1, whose quantization step is
1/2, outside (0, 0.25]. -/
theorem qstep_bound_cex :
    ((1 : ℤ) ≤ 2 ∧ (2 : ℤ) < 3) ∧
      (entropyStep (fun (g : Unit) _ _ => (2, g)) 3 2 ()).1 = 1 ∧
      qstep 1 = 1 / 2 ∧ ¬ qstep 1 ≤ 1 / 4 := by
  refine ⟨⟨by decide, by decide⟩, ?_, ?_, ?_⟩
  · norm_num [entropyStep]
  · unfold qstep totalQLevels
    rw [Real.rpow_one]
  · unfold qstep totalQLevels
    rw [Real.rpow_one]
    norm_num

/-- C2 (amended): for crush ∈ [2, 32] the quantization step lies in
(0, 0.25] when the effective depth is the raw crush parameter (the
entropy = 1 path); under entropy modulation, where the depth becomes
crush / n for a drawn n ≥ 1, the step is only guaranteed to lie in (0, 1). -/
theorem qstep_bounds_amended (crush : ℝ) (h2 : 2 ≤ crush) (h32 : crush ≤ 32)
    (n : ℤ) (hn : 1 ≤ n) :
    (0 < qstep crush ∧ qstep crush ≤ 1 / 4) ∧
      (0 < qstep (crush / (n : ℝ)) ∧ qstep (crush / (n : ℝ)) < 1) := by
  have hc : (0 : ℝ) < crush := lt_of_lt_of_le (by norm_num) h2
  have hn0 : (0 : ℤ) < n := lt_of_lt_of_le zero_lt_one hn
  have hnR : (0 : ℝ) < (n : ℝ) := by exact_mod_cast hn0
  exact ⟨⟨qstep_pos crush, qstep_le_quarter h2⟩,
    qstep_pos _, qstep_lt_one (div_pos hc hnR)⟩

theorem qstep_bounds_amended_witness :
    (0 < qstep 2 ∧ qstep 2 ≤ 1 / 4) ∧
      (0 < qstep (2 / ((2 : ℤ) : ℝ)) ∧ qstep (2 / ((2 : ℤ) : ℝ)) < 1) :=
  qstep_bounds_amended 2 (le_refl 2) (by norm_num) 2 (by decide)

/-! ### Claim C3: clamp behavior of the per-sample clipping stage -/

/-- C3: in the per-sample pass, with thresholds computed by the code from a
nonnegative clip parameter, a nonzero clipMax acts as a floor (samples below
it are raised to it), a nonzero clipMin acts as a ceiling (samples above it
are lowered to it), a sample triggering neither comparison passes the
clipping stage unchanged, and a threshold equal to 0 disables its clamp. -/
theorem clip_clamp_behavior (clip : ℝ) (samples : List ℝ) (s : ℝ)
    (h : 0 ≤ clip) :
    ((clipThresholds clip samples).1 ≠ 0 → s < (clipThresholds clip samples).1 →
      clipStage (clipThresholds clip samples).1 (clipThresholds clip samples).2 s
        = (clipThresholds clip samples).1) ∧
    ((clipThresholds clip samples).2 ≠ 0 → (clipThresholds clip samples).2 < s →
      clipStage (clipThresholds clip samples).1 (clipThresholds clip samples).2 s
        = (clipThresholds clip samples).2) ∧
    (¬ ((clipThresholds clip samples).1 ≠ 0 ∧ s < (clipThresholds clip samples).1) →
      ¬ ((clipThresholds clip samples).2 ≠ 0 ∧ (clipThresholds clip samples).2 < s) →
      clipStage (clipThresholds clip samples).1 (clipThresholds clip samples).2 s
        = s) ∧
    (∀ cm t : ℝ, clipStage 0 cm t = if cm ≠ 0 ∧ cm < t then cm else t) ∧
    (∀ cM t : ℝ, clipStage cM 0 t = if cM ≠ 0 ∧ t < cM then cM else t) := by
  have hcM : (clipThresholds clip samples).1 ≤ 0 :=
    clipThresholds_fst_nonpos h samples
  have hcm : 0 ≤ (clipThresholds clip samples).2 :=
    clipThresholds_snd_nonneg h samples
  refine ⟨?_, ?_, ?_, clipStage_fst_zero, clipStage_snd_zero⟩
  · intro h1 h2
    simp only [clipStage]
    rw [if_pos (⟨h1, h2⟩ : (clipThresholds clip samples).1 ≠ 0 ∧
      s < (clipThresholds clip samples).1), if_neg]
    rintro ⟨hne, hlt⟩
    exact absurd hlt (not_lt.mpr (le_trans hcM hcm))
  · intro h1 h2
    simp only [clipStage]
    have hno : ¬ ((clipThresholds clip samples).1 ≠ 0 ∧
        s < (clipThresholds clip samples).1) := by
      rintro ⟨hne, hlt⟩
      exact absurd hlt (not_lt.mpr (le_trans hcM (le_trans hcm h2.le)))
    rw [if_neg hno, if_pos ⟨h1, h2⟩]
  · intro h1 h2
    simp only [clipStage]
    rw [if_neg h1, if_neg h2]

theorem clip_clamp_behavior_witness :
    clipStage (clipThresholds (1 / 2) [4 / 5, -(3 / 5)]).1
        (clipThresholds (1 / 2) [4 / 5, -(3 / 5)]).2 (-(1 / 2))
      = (clipThresholds (1 / 2) [4 / 5, -(3 / 5)]).1 :=
  (clip_clamp_behavior (1 / 2) [4 / 5, -(3 / 5)] (-(1 / 2)) (by norm_num)).1
    (by norm_num [clipThresholds, scanMinMax, scanStep])
    (by norm_num [clipThresholds, scanMinMax, scanStep])

/-! ### Claim C4: clip = 1 disables the clipper completely -/

/-- C4: with clip = 1 the threshold pre-pass is skipped and both thresholds
remain (0, 0), zero thresholds leave every value unchanged in the clipping
stage, and the processed buffer is exactly the one computed with both
thresholds 0 — the clipping stage alters no sample, whatever the buffer. -/
theorem clip_one_noop {G : Type} (draw : G → ℤ → ℤ → ℤ × G) (g : G)
    (crush : ℝ) (redux entropy : ℤ) (buf : List (List ℝ)) (s : ℝ) :
    clipThresholds 1 buf.flatten = (0, 0) ∧ clipStage 0 0 s = s ∧
      process draw g crush redux entropy 1 buf
        = (stepFrames (entropyStep draw entropy crush g).1 redux 0 0 0 0 buf,
           (entropyStep draw entropy crush g).2) := by
  have ht : clipThresholds (1 : ℝ) buf.flatten = (0, 0) := by
    unfold clipThresholds
    rw [if_neg (lt_irrefl 1)]
  exact ⟨ht, clipStage_zero_zero s, by simp [process, ht]⟩

/-! ### Claim C5: entropy = 1 skips the draw entirely -/

/-- C5: with entropy = 1 the modulator takes the guarded branch: the
generator state is returned untouched (no draw occurs, hence no attempt to
sample the empty range [1, 1)), the effective crush depth equals the raw
crush parameter for the whole call, and the processing outcome is identical
for every possible draw function — the generator is never consulted. -/
theorem entropy_one_no_draw {G : Type} (draw draw2 : G → ℤ → ℤ → ℤ × G)
    (g : G) (crush : ℝ) (redux : ℤ) (clip : ℝ) (buf : List (List ℝ)) :
    entropyStep draw 1 crush g = (crush, g) ∧
      (process draw g crush redux 1 clip buf).2 = g ∧
      (process draw g crush redux 1 clip buf).1
        = stepFrames crush redux (clipThresholds clip buf.flatten).1
            (clipThresholds clip buf.flatten).2 0 0 buf ∧
      process draw g crush redux 1 clip buf
        = process draw2 g crush redux 1 clip buf := by
  have he : ∀ d : G → ℤ → ℤ → ℤ × G, entropyStep d 1 crush g = (crush, g) := by
    intro d
    unfold entropyStep
    rw [if_neg (lt_irrefl 1)]
  refine ⟨he draw, ?_, ?_, ?_⟩ <;> simp [process, he]

/-! ### Claim C6: entropy > 1 draws exactly once, before the loop -/

/-- C6: with entropy > 1 the modulator invokes the generator exactly once,
on the half-open range [1, entropy); the effective crush depth becomes
crush / n for the drawn n, the generator state advances to the state after
that single draw, and the whole buffer — every sample of every channel — is
processed with that one effective depth. -/
theorem entropy_gt_one_single_draw {G : Type} (draw : G → ℤ → ℤ → ℤ × G)
    (g : G) (crush : ℝ) (redux entropy : ℤ) (clip : ℝ)
    (buf : List (List ℝ)) (h : 1 < entropy) :
    entropyStep draw entropy crush g
        = (crush / ((draw g 1 entropy).1 : ℝ), (draw g 1 entropy).2) ∧
      (process draw g crush redux entropy clip buf).2 = (draw g 1 entropy).2 ∧
      (process draw g crush redux entropy clip buf).1
        = stepFrames (crush / ((draw g 1 entropy).1 : ℝ)) redux
            (clipThresholds clip buf.flatten).1
            (clipThresholds clip buf.flatten).2 0 0 buf := by
  have he : entropyStep draw entropy crush g
      = (crush / ((draw g 1 entropy).1 : ℝ), (draw g 1 entropy).2) := by
    unfold entropyStep
    rw [if_pos h]
  exact ⟨he, by simp [process, he], by simp [process, he]⟩

theorem entropy_gt_one_single_draw_witness :
    (process (fun (g : Unit) _ _ => ((1 : ℤ), g)) () 2 1 2 1
        ([] : List (List ℝ))).2 = () :=
  (entropy_gt_one_single_draw (fun (g : Unit) _ _ => ((1 : ℤ), g)) () 2 1 2 1
    [] (by decide)).2.1

/-! ### Further quantizer lemmas -/

theorem totalQLevels_two : totalQLevels (2 : ℝ) = 4 := by
  unfold totalQLevels
  rw [Real.rpow_two]
  norm_num

theorem qstep_two : qstep (2 : ℝ) = 1 / 4 := by
  unfold qstep
  rw [totalQLevels_two]

theorem truncR_nonpos_bounds {x : ℝ} (hx : x ≤ 0) :
    x ≤ (truncR x : ℝ) ∧ (truncR x : ℝ) ≤ 0 := by
  unfold truncR
  rcases eq_or_lt_of_le hx with h0 | hlt
  · rw [h0]
    simp
  · rw [if_neg (not_le.mpr hlt)]
    refine ⟨Int.le_ceil x, ?_⟩
    exact_mod_cast Int.ceil_le.mpr (by exact_mod_cast hlt.le)

theorem quantize_nonpos_bounds (d : ℝ) {t : ℝ} (ht : t ≤ 0) :
    t ≤ quantize d t ∧ quantize d t ≤ 0 := by
  have hm : 0 < qstep d := qstep_pos d
  have hdiv : t / qstep d ≤ 0 := div_nonpos_of_nonpos_of_nonneg ht hm.le
  obtain ⟨hb1, hb2⟩ := truncR_nonpos_bounds hdiv
  constructor
  · have hc : qstep d * (t / qstep d) = t := by
      field_simp
    calc t = qstep d * (t / qstep d) := hc.symm
    _ ≤ qstep d * (truncR (t / qstep d) : ℝ) :=
      mul_le_mul_of_nonneg_left hb1 hm.le
    _ = quantize d t := (quantize_eq_mul_trunc d t).symm
  · rw [quantize_eq_mul_trunc]
    exact mul_nonpos_iff.mpr (Or.inl ⟨hm.le, hb2⟩)

theorem quantize_two_mem {s : ℝ} (h0 : 0 ≤ s) (h1 : s < 1) :
    quantize 2 s ∈ ({0, 1 / 4, 1 / 2, 3 / 4} : Set ℝ) := by
  have hq : quantize 2 s = (1 / 4) * (truncR (s / (1 / 4)) : ℝ) := by
    rw [quantize_eq_mul_trunc, qstep_two]
  have hdiv : s / (1 / 4 : ℝ) = 4 * s := by ring
  have h40 : (0 : ℝ) ≤ 4 * s := by nlinarith
  have h44 : (4 : ℝ) * s < 4 := by nlinarith
  have htr : truncR (4 * s) = ⌊(4 : ℝ) * s⌋ := by
    unfold truncR
    rw [if_pos h40]
  rw [hq, hdiv, htr]
  set k := ⌊(4 : ℝ) * s⌋ with hk
  have hk0 : 0 ≤ k := Int.floor_nonneg.mpr h40
  have hk4 : k < 4 := by
    rw [hk, Int.floor_lt]
    exact_mod_cast h44
  interval_cases k <;>
    norm_num [Set.mem_insert_iff, Set.mem_singleton_iff]

/-! ### Claim C7: quantizer formula and the crush = 2 grid -/

theorem quantize_neg (d t : ℝ) : quantize d (-t) = -quantize d t := by
  unfold quantize
  rw [rustRem_neg]
  ring

theorem quantize_two_mem_neg {s : ℝ} (h0 : -1 < s) (h1 : s ≤ 0) :
    quantize 2 s ∈ ({0, -(1 / 4), -(1 / 2), -(3 / 4)} : Set ℝ) := by
  have h2 : quantize 2 s = -quantize 2 (-s) := by
    rw [← quantize_neg, neg_neg]
  have h3 : quantize 2 (-s) ∈ ({0, 1 / 4, 1 / 2, 3 / 4} : Set ℝ) :=
    quantize_two_mem (by linarith) (by linarith)
  simp only [Set.mem_insert_iff, Set.mem_singleton_iff] at h3 ⊢
  rw [h2]
  rcases h3 with h | h | h | h <;> rw [h] <;> norm_num

theorem quantize_two_pos_three_tenths : quantize 2 (3 / 10 : ℝ) = 1 / 4 := by
  rw [quantize_eq_mul_trunc, qstep_two,
    show (3 / 10 : ℝ) / (1 / 4) = 6 / 5 by norm_num]
  have ht : truncR (6 / 5 : ℝ) = 1 := by
    unfold truncR
    rw [if_pos (by norm_num), Int.floor_eq_iff]
    norm_num
  rw [ht]
  norm_num

theorem quantize_two_four_fifths : quantize 2 (4 / 5 : ℝ) = 3 / 4 := by
  rw [quantize_eq_mul_trunc, qstep_two,
    show (4 / 5 : ℝ) / (1 / 4) = 16 / 5 by norm_num]
  have ht : truncR (16 / 5 : ℝ) = 3 := by
    unfold truncR
    rw [if_pos (by norm_num), Int.floor_eq_iff]
    norm_num
  rw [ht]
  norm_num

/-- C7 counterexample: at crush = 2 the code maps the in-range sample −0.3
to −0.25 and the sample 0.8 to 0.75, and no 4 grid points spaced 0.25 apart
can contain both reachable outputs −0.25 and 0.75 (they are 1 apart, while
such a grid spans only 0.75), so the frozen clause that every output lies on
one of 4 grid points spaced 0.25 apart fails for signed samples. -/
theorem quantizer_grid_cex :
    quantize 2 (-(3 / 10)) = -(1 / 4) ∧ quantize 2 (4 / 5) = 3 / 4 ∧
      ¬ ∃ a : ℝ,
        -(1 / 4 : ℝ) ∈ ({a, a + 1 / 4, a + 1 / 2, a + 3 / 4} : Set ℝ) ∧
        (3 / 4 : ℝ) ∈ ({a, a + 1 / 4, a + 1 / 2, a + 3 / 4} : Set ℝ) := by
  refine ⟨?_, quantize_two_four_fifths, ?_⟩
  · rw [quantize_neg, quantize_two_pos_three_tenths]
  · rintro ⟨a, h1, h2⟩
    simp only [Set.mem_insert_iff, Set.mem_singleton_iff] at h1 h2
    rcases h1 with h1 | h1 | h1 | h1 <;> rcases h2 with h2 | h2 | h2 | h2 <;>
      linarith

/-- C7 (amended): for every finite sample the quantizer outputs
s − (s % step) for step = 1/2^d, with the remainder carrying the sign of the
dividend (negation commutes through it and nonpositive samples floor toward
zero, not toward −∞); at crush = 2 the level count is 2^2 = 4, the step 1/4,
and every output sample lies on the 0.25-spaced quantization grid (an
integer multiple of 1/4): inputs in [0, 1) land on the 4 points 0, 1/4, 1/2,
3/4, and inputs in (−1, 0] on their mirrored negatives. -/
theorem quantizer_grid_amended (s : ℝ) :
    totalQLevels 2 = 4 ∧ qstep 2 = 1 / 4 ∧
      (∀ d t : ℝ, quantize d t = t - rustRem t (qstep d)) ∧
      (∀ m t : ℝ, rustRem (-t) m = -rustRem t m) ∧
      (∀ d t : ℝ, t ≤ 0 → t ≤ quantize d t ∧ quantize d t ≤ 0) ∧
      (∃ k : ℤ, quantize 2 s = (k : ℝ) * (1 / 4)) ∧
      (0 ≤ s → s < 1 → quantize 2 s ∈ ({0, 1 / 4, 1 / 2, 3 / 4} : Set ℝ)) ∧
      (-1 < s → s ≤ 0 →
        quantize 2 s ∈ ({0, -(1 / 4), -(1 / 2), -(3 / 4)} : Set ℝ)) := by
  refine ⟨totalQLevels_two, qstep_two, fun d t => rfl,
    fun m t => rustRem_neg t m, fun d t ht => quantize_nonpos_bounds d ht,
    ⟨truncR (s / (1 / 4)), ?_⟩, fun h0 h1 => quantize_two_mem h0 h1,
    fun h0 h1 => quantize_two_mem_neg h0 h1⟩
  rw [quantize_eq_mul_trunc, qstep_two, mul_comm]

theorem quantizer_grid_amended_witness :
    ((0 : ℝ) ≤ 3 / 10 ∧ (3 / 10 : ℝ) < 1) ∧
      quantize 2 (3 / 10) ∈ ({0, 1 / 4, 1 / 2, 3 / 4} : Set ℝ) :=
  ⟨⟨by norm_num, by norm_num⟩,
    (quantizer_grid_amended (3 / 10)).2.2.2.2.2.2.1 (by norm_num)
      (by norm_num)⟩

/-! ### Claim C8: the quantizer is idempotent -/

/-- C8: an already-quantized value has remainder 0 with respect to the same
step, so running the quantizer again at the same depth returns it
unchanged. -/
theorem quantizer_idempotent (d s : ℝ) :
    rustRem (quantize d s) (qstep d) = 0 ∧
      quantize d (quantize d s) = quantize d s := by
  have hm : qstep d ≠ 0 := (qstep_pos d).ne'
  have hr : rustRem (quantize d s) (qstep d) = 0 := by
    rw [quantize_eq_mul_trunc]
    unfold rustRem
    rw [mul_div_cancel_left₀ _ hm, truncR_intCast]
    ring
  refine ⟨hr, ?_⟩
  show quantize d s - rustRem (quantize d s) (qstep d) = quantize d s
  rw [hr, sub_zero]

/-! ### Claim C9: the decimator contract -/

/-- C9: with redux = 1 the decimation stage passes every sample through and
leaves the held cell alone, so (with the clipper disabled) the processed
buffer is the quantized buffer sample-for-sample; with redux > 1 a position
whose frame index is divisible by redux stores the already-quantized sample
into the held cell and passes it through unchanged, every other position is
overwritten with the held value, and on a mono buffer the loop coincides
with the spec's sample-and-hold reference `specHold` applied to the
quantized samples — each output equals the most recently held sample. -/
theorem decimator_contract (crush : ℝ) (redux : ℤ) (i : ℕ) (r s : ℝ)
    (buf : List (List ℝ)) (xs : List ℝ) :
    decimate 1 i r s = (s, r) ∧
      (∀ (j : ℕ) (rr : ℝ), stepFrames crush 1 0 0 j rr buf
        = buf.map (List.map (quantize crush))) ∧
      (1 < redux → (i : ℤ) % redux = 0 → decimate redux i r s = (s, s)) ∧
      (1 < redux → (i : ℤ) % redux ≠ 0 → decimate redux i r s = (r, r)) ∧
      (1 < redux → stepFrames crush redux 0 0 0 r (xs.map fun x => [x])
        = (specHold redux 0 r (xs.map (quantize crush))).map fun x => [x]) := by
  have hmap : (fun t => clipStage 0 0 (quantize crush t)) = quantize crush :=
    funext fun t => clipStage_zero_zero _
  refine ⟨?_, ?_, ?_, ?_, ?_⟩
  · unfold decimate
    rw [if_neg (lt_irrefl 1)]
  · intro j rr
    rw [stepFrames_redux_le_one crush (lt_irrefl 1) 0 0 buf j rr, hmap]
  · intro hr hi
    unfold decimate
    rw [if_pos hr, if_neg (not_not_intro hi)]
  · intro hr hi
    unfold decimate
    rw [if_pos hr, if_pos hi]
  · intro hr
    exact stepFrames_mono_specHold crush hr xs 0 r

theorem decimator_contract_witness : decimate 2 1 0 1 = ((0 : ℝ), (0 : ℝ)) :=
  (decimator_contract 2 2 1 0 1 [] []).2.2.2.1 (by decide) (by decide)

/-! ### Claim C10: per-frame counting and the shared held cell -/

/-- C10: the position counter advances once per multichannel frame, not once
per channel sample, and the single held cell is shared by all channels: at a
holding frame every channel's quantized sample passes through unchanged and
the cell ends up holding the last channel's quantized value; at a held frame
every channel is overwritten with the same single held value; and since
frame index 0 is always a holding frame, the cell's 0 initializer never
reaches the output — the processed frames do not depend on it as soon as the
first frame has at least one channel. -/
theorem decimator_frame_counter_shared_cell (crush : ℝ) (redux : ℤ)
    (cM cm : ℝ) (i : ℕ) (r r2 : ℝ) (cs : List ℝ) (rest : List (List ℝ)) :
    (1 < redux → (i : ℤ) % redux = 0 →
      stepFrame crush redux 0 0 i r cs
        = (cs.map (quantize crush), (cs.map (quantize crush)).getLastD r)) ∧
    (1 < redux → (i : ℤ) % redux ≠ 0 →
      stepFrame crush redux 0 0 i r cs = (cs.map fun _ => r, r)) ∧
    (stepFrames crush redux cM cm i r (cs :: rest)
      = (stepFrame crush redux cM cm i r cs).1
          :: stepFrames crush redux cM cm (i + 1)
              (stepFrame crush redux cM cm i r cs).2 rest) ∧
    (cs ≠ [] → stepFrames crush redux cM cm 0 r (cs :: rest)
      = stepFrames crush redux cM cm 0 r2 (cs :: rest)) := by
  have hmap : (fun t => clipStage 0 0 (quantize crush t)) = quantize crush :=
    funext fun t => clipStage_zero_zero _
  refine ⟨?_, ?_, rfl, ?_⟩
  · intro hr hi
    rw [stepFrame_hold crush hr 0 0 hi cs r, hmap]
  · intro hr hi
    rw [stepFrame_held crush hr 0 0 hi cs r]
    simp only [clipStage_zero_zero]
  · intro h
    by_cases hr : 1 < redux
    · have hi : ((0 : ℕ) : ℤ) % redux = 0 := by simp
      have hne : cs.map (quantize crush) ≠ [] := by
        simpa using h
      simp only [stepFrames]
      rw [stepFrame_hold crush hr cM cm hi cs r,
        stepFrame_hold crush hr cM cm hi cs r2]
      simp only
      rw [getLastD_of_ne_nil hne r r2]
    · rw [stepFrames_redux_le_one crush hr cM cm (cs :: rest) 0 r,
        stepFrames_redux_le_one crush hr cM cm (cs :: rest) 0 r2]

theorem decimator_frame_counter_shared_cell_witness :
    stepFrame 2 2 0 0 1 5 [1, 2] = ([1, 2].map fun _ => (5 : ℝ), 5) :=
  (decimator_frame_counter_shared_cell 2 2 0 0 1 5 5 [1, 2] []).2.1
    (by decide) (by decide)

end Entrope
